import Mathlib

/-!
Verification of the 4C-Lite normalization-and-matching engine.

The engine's strings are modelled as `List Char` (`Str`), a faithful shallow
embedding of JavaScript strings for the ASCII data the engine processes.
Definitions are translated from the source files
(`dataCleaningUtils` and the analysis component).
-/

/-- JavaScript-style string: a sequence of characters. -/
abbrev Str := List Char

/-- Convert a Lean string literal to the `Str` model. -/
def lit (s : String) : Str := s.toList

/-- `String.prototype.toLowerCase` (ASCII). -/
def toLowerStr (s : Str) : Str := s.map Char.toLower

/-- `String.prototype.trim`: drop leading and trailing whitespace. -/
def strTrim (s : Str) : Str :=
  ((s.dropWhile Char.isWhitespace).reverse.dropWhile Char.isWhitespace).reverse

/-- Does `s` start with `p`? (helper for substring containment). -/
def strStartsWith : Str → Str → Bool
  | _, [] => true
  | [], _ :: _ => false
  | c :: cs, d :: ds => c = d && strStartsWith cs ds

/-- `String.prototype.includes`: does `sub` occur contiguously in `s`? -/
def strContains : Str → Str → Bool
  | s, sub =>
    strStartsWith s sub ||
      match s with
      | [] => false
      | _ :: cs => strContains cs sub

/-- `split(/\s+/).filter(t => t.length > 0)`: the maximal whitespace-free runs,
in order.  Accumulator version; `acc` holds the current run reversed. -/
def tokenizeAux : Str → Str → List Str
  | [], acc => if acc = [] then [] else [acc.reverse]
  | c :: cs, acc =>
    if c.isWhitespace then
      if acc = [] then tokenizeAux cs [] else acc.reverse :: tokenizeAux cs []
    else tokenizeAux cs (c :: acc)

/-- Whitespace-run tokenizer used by the Token Cleaner. -/
def tokenize (s : Str) : List Str := tokenizeAux s []

/-- `Array.prototype.join(' ')`. -/
def joinSp : List Str → Str
  | [] => []
  | [t] => t
  | t :: ts => t ++ ' ' :: joinSp ts

/-- `String.prototype.split(sep)` for a single-character separator. -/
def splitOnAux (sep : Char) : Str → Str → List Str
  | [], acc => [acc.reverse]
  | c :: cs, acc =>
    if c = sep then acc.reverse :: splitOnAux sep cs []
    else splitOnAux sep cs (c :: acc)

/-- Split a string on a separator character (JS `split` semantics). -/
def splitOn (sep : Char) (s : Str) : List Str := splitOnAux sep s []

/-- A hexadecimal digit (`[0-9a-fA-F]`). -/
def isHexDigit (c : Char) : Bool :=
  c.isDigit || ('a' ≤ c && c ≤ 'f') || ('A' ≤ c && c ≤ 'F')

/-- The octet group of `IP_ADDRESS_PATTERN`,
`(25[0-5]|2[0-4][0-9]|[01]?[0-9][0-9]?)`, applied to a whole dot-delimited
part: three-character parts match one of the three-digit alternatives,
one- and two-character parts match `[01]?[0-9][0-9]?`. -/
def isOctet : Str → Bool
  | [a, b, c] =>
    (a = '2' && b = '5' && '0' ≤ c && c ≤ '5') ||
    (a = '2' && '0' ≤ b && b ≤ '4' && c.isDigit) ||
    ((a = '0' || a = '1') && b.isDigit && c.isDigit)
  | [a, b] => a.isDigit && b.isDigit
  | [a] => a.isDigit
  | _ => false

/-- `IP_ADDRESS_PATTERN`: a valid dotted-quad IPv4 address
(`^(octet\.){3}octet$`, octets 0-255). -/
def isIPv4 (s : Str) : Bool :=
  match splitOn '.' s with
  | [a, b, c, d] => isOctet a && isOctet b && isOctet c && isOctet d
  | _ => false

/-- `IPV6_PATTERN`: `^([0-9a-fA-F]{1,4}:){7}[0-9a-fA-F]{1,4}$|^::1$|^::$`
(the full 8-group form, or exactly the literals `::1` / `::`). -/
def isIPv6 (s : Str) : Bool :=
  (match splitOn ':' s with
   | parts =>
     parts.length = 8 &&
       parts.all fun p => 1 ≤ p.length && p.length ≤ 4 && p.all isHexDigit) ||
  s = [':', ':', '1'] || s = [':', ':']

/-- The IP check of the Token Cleaner (`IP_ADDRESS_PATTERN || IPV6_PATTERN`). -/
def isIPToken (s : Str) : Bool := isIPv4 s || isIPv6 s

/-- Tail of `MAC_ADDRESS_PATTERN`'s colon/hyphen form: `n` repetitions of
`[:-][0-9A-Fa-f]{2}` and then the end of string. -/
def macPairs : Nat → Str → Bool
  | 0, [] => true
  | n + 1, sep :: a :: b :: rest =>
    (sep = ':' || sep = '-') && isHexDigit a && isHexDigit b && macPairs n rest
  | _, _ => false

/-- `MAC_ADDRESS_PATTERN`:
`^([0-9A-Fa-f]{2}[:-]){5}([0-9A-Fa-f]{2})$|^([0-9A-Fa-f]{4}\.){2}[0-9A-Fa-f]{4}$`. -/
def isMACToken (s : Str) : Bool :=
  (match s with
   | a :: b :: rest => isHexDigit a && isHexDigit b && macPairs 5 rest
   | _ => false) ||
  (match splitOn '.' s with
   | [p, q, r] =>
     p.length = 4 && p.all isHexDigit && q.length = 4 && q.all isHexDigit &&
       r.length = 4 && r.all isHexDigit
   | _ => false)

/-- A run of digits of length between `lo` and `hi` (`\d{lo,hi}` on a whole part). -/
def digitsBetween (lo hi : Nat) (s : Str) : Bool :=
  lo ≤ s.length && s.length ≤ hi && s.all Char.isDigit

/-- `DATE_PATTERNS[0]` / `DATE_PATTERNS[1]` / `DATE_PATTERNS[3]`:
`^\d{1,2}SEP\d{1,2}SEP\d{2,4}$` for separator `/`, `-` or `.`. -/
def isDateDMY (sep : Char) (s : Str) : Bool :=
  match splitOn sep s with
  | [a, b, c] => digitsBetween 1 2 a && digitsBetween 1 2 b && digitsBetween 2 4 c
  | _ => false

/-- `DATE_PATTERNS[2]`: `^\d{4}-\d{1,2}-\d{1,2}$`. -/
def isDateYMD (s : Str) : Bool :=
  match splitOn '-' s with
  | [a, b, c] => digitsBetween 4 4 a && digitsBetween 1 2 b && digitsBetween 1 2 c
  | _ => false

/-- The three-letter month alternation of `DATE_PATTERNS[4]`, case-insensitive. -/
def isMonthAbbrev (m : Str) : Bool :=
  [lit "jan", lit "feb", lit "mar", lit "apr", lit "may", lit "jun",
   lit "jul", lit "aug", lit "sep", lit "oct", lit "nov", lit "dec"].contains
    (toLowerStr m)

/-- `\s+\d{2,4}$`: whitespace then two to four digits ending the string. -/
def wsThenYear (s : Str) : Bool :=
  let w := s.takeWhile Char.isWhitespace
  let rest := s.dropWhile Char.isWhitespace
  !w.isEmpty && digitsBetween 2 4 rest

/-- `\s+\d{1,2},?\s+\d{2,4}$`: the tail of `DATE_PATTERNS[4]` after the month. -/
def monthDateTail (s : Str) : Bool :=
  let w := s.takeWhile Char.isWhitespace
  let afterW := s.dropWhile Char.isWhitespace
  let day := afterW.takeWhile Char.isDigit
  let afterDay := afterW.dropWhile Char.isDigit
  let afterComma := match afterDay with
    | ',' :: r => r
    | r => r
  !w.isEmpty && 1 ≤ day.length && day.length ≤ 2 && wsThenYear afterComma

/-- `DATE_PATTERNS[4]`: `^(Jan|Feb|...|Dec)\s+\d{1,2},?\s+\d{2,4}$`, case-insensitive. -/
def isDateMonthName (s : Str) : Bool :=
  match s with
  | c1 :: c2 :: c3 :: rest => isMonthAbbrev [c1, c2, c3] && monthDateTail rest
  | _ => false

/-- `DATE_PATTERNS.some(pattern => pattern.test(token))`. -/
def isDateToken (s : Str) : Bool :=
  isDateDMY '/' s || isDateDMY '-' s || isDateYMD s || isDateDMY '.' s ||
    isDateMonthName s

/-- The `COMMON_WORDS` set of `dataCleaningUtils`. -/
def COMMON_WORDS : List Str :=
  [lit "the", lit "and", lit "for", lit "are", lit "but", lit "not", lit "you",
   lit "all", lit "can", lit "had", lit "her", lit "was", lit "one", lit "our",
   lit "out", lit "day", lit "get", lit "has", lit "him", lit "his", lit "how",
   lit "man", lit "new", lit "now", lit "old", lit "see", lit "two", lit "way",
   lit "who", lit "boy", lit "did", lit "its", lit "let", lit "put", lit "say",
   lit "she", lit "too", lit "use",
   lit "camera", lit "security", lit "surveillance", lit "system", lit "device",
   lit "equipment", lit "network", lit "wireless", lit "indoor", lit "outdoor",
   lit "dome", lit "bullet", lit "ptz", lit "fixed", lit "varifocal", lit "lens",
   lit "megapixel", lit "resolution", lit "night", lit "vision", lit "infrared",
   lit "audio", lit "video", lit "digital", lit "analog", lit "hybrid",
   lit "nvr", lit "dvr", lit "recorder", lit "channel", lit "port", lit "power",
   lit "supply", lit "adapter", lit "cable", lit "mount", lit "bracket",
   lit "housing", lit "enclosure"]

/-- The manufacturer check: some vocabulary entry equals the lowered token or is
in a mutual substring relation with it, all case-insensitively. -/
def isManufacturerToken (manufacturerNames : List Str) (t : Str) : Bool :=
  let tokenLower := toLowerStr t
  manufacturerNames.any fun manufacturer =>
    toLowerStr manufacturer = tokenLower ||
      strContains tokenLower (toLowerStr manufacturer) ||
      strContains (toLowerStr manufacturer) tokenLower

/-- The common-word check: `/^[a-zA-Z]+$/` and length strictly above 2 and
membership of the lowered token in `COMMON_WORDS`. -/
def isCommonWordToken (t : Str) : Bool :=
  (!t.isEmpty && t.all Char.isAlpha) && 2 < t.length &&
    COMMON_WORDS.contains (toLowerStr t)

/-- `/[a-zA-Z0-9]/.test(token)`: does the token contain an alphanumeric? -/
def containsAlnum (t : Str) : Bool := t.any Char.isAlphanum

/-- A JavaScript `\w` word character: `[A-Za-z0-9_]`. -/
def isWordChar (c : Char) : Bool := c.isAlphanum || c = '_'

/-- `/^[^\w\s-_\.]+$/`: nonempty and no character is a word character,
whitespace, hyphen, underscore, or period. -/
def isPunctToken (t : Str) : Bool :=
  !t.isEmpty && t.all fun c =>
    !(isWordChar c || c.isWhitespace || c = '-' || c = '_' || c = '.')

/-- Removal-record strings such as `"IP: 10.0.0.1"`. -/
def mkEntry (reason : String) (t : Str) : Str := lit reason ++ ':' :: ' ' :: t

/-- The per-token decision of `cleanModelData`'s filter body:
`none` = keep, `some none` = dropped silently (trim-empty token),
`some (some e)` = dropped with removal record `e`. -/
def tokenDecision (manufacturerNames : List Str) (token : Str) : Option (Option Str) :=
  let t := strTrim token
  if t = [] then some none
  else if isIPToken t then some (some (mkEntry "IP" t))
  else if isMACToken t then some (some (mkEntry "MAC" t))
  else if isDateToken t then some (some (mkEntry "Date" t))
  else if isManufacturerToken manufacturerNames t then
    some (some (mkEntry "Manufacturer" t))
  else if isCommonWordToken t then some (some (mkEntry "Common word" t))
  else if containsAlnum t then none
  else if isPunctToken t then some (some (mkEntry "Punctuation" t))
  else none

/-- `CleaningResult` of `dataCleaningUtils`. -/
structure CleaningResult where
  original : Str
  cleaned : Str
  removedElements : List Str
deriving DecidableEq, Repr

/-- `cleanModelData`: trim, tokenize, drop noise tokens (recording a reason for
each), and rejoin the survivors with single spaces. -/
def cleanModelData (input : Str) (manufacturerNames : List Str) : CleaningResult :=
  let original := strTrim input
  let tokens := tokenize original
  let cleanedTokens := tokens.filter fun tk => tokenDecision manufacturerNames tk = none
  let removed := tokens.filterMap fun tk => (tokenDecision manufacturerNames tk).getD none
  { original := original
    cleaned := strTrim (joinSp cleanedTokens)
    removedElements := removed }

/-- `preprocessModelForMatching`: the cleaned label of `cleanModelData`. -/
def preprocessModelForMatching (model : Str) (manufacturerNames : List Str) : Str :=
  (cleanModelData model manufacturerNames).cleaned

/-- Inner loop of `levenshteinDistance`'s row `i`: build the cells `j = 1..|str1|`
from the previous row (`prev`, positioned so its head is `matrix[i-1][j-1]`) and
the cell to the left (`left`).  `c2` is `str2.charAt(i-1)`. -/
def levNextRowAux (c2 : Char) : Str → List Nat → Nat → List Nat
  | [], _, _ => []
  | _ :: _, [], _ => []
  | c1 :: cs, diag :: prevRest, left =>
    let up := prevRest.headD 0
    let cell := if c2 = c1 then diag else min (diag + 1) (min (left + 1) (up + 1))
    cell :: levNextRowAux c2 cs prevRest cell

/-- Row `i` of the Levenshtein matrix: `matrix[i][0] = i`, then the inner loop. -/
def levNextRow (str1 : Str) (prev : List Nat) (i : Nat) (c2 : Char) : List Nat :=
  i :: levNextRowAux c2 str1 prev i

/-- `levenshteinDistance`: the dynamic-programming matrix of the source, row by
row (`matrix[0][j] = j`, `matrix[i][0] = i`, interior cells from diagonal, left
and upper neighbours), returning `matrix[str2.length][str1.length]`. -/
def levenshteinDistance (str1 str2 : Str) : Nat :=
  let firstRow := List.range (str1.length + 1)
  let lastRow :=
    (str2.foldl (fun (st : List Nat × Nat) c2 => (levNextRow str1 st.1 st.2 c2, st.2 + 1))
      (firstRow, 1)).1
  lastRow.getLastD 0

/-- `calculateSimilarity`: `(longer.length - editDistance) / longer.length` over
the case-lowered strings, `1.0` when the longer string is empty.  JavaScript
numbers are modelled by `ℚ`. -/
def calculateSimilarity (str1 str2 : Str) : ℚ :=
  let longer := if str1.length > str2.length then str1 else str2
  let shorter := if str1.length > str2.length then str2 else str1
  if longer.length = 0 then 1
  else
    ((longer.length : ℚ) - levenshteinDistance (toLowerStr longer) (toLowerStr shorter)) /
      (longer.length : ℚ)

/-- `VerkadaModel`: a reference-catalog entry. -/
structure VerkadaModel where
  manufacturer : Str
  modelName : Str
  minFirmware : Str
  notes : Str
deriving DecidableEq, Repr

/-- The three-way classification of `findBestMatch`. -/
inductive MatchType where
  | exact
  | potential
  | none
deriving DecidableEq, Repr

/-- The compatibility classification derived from catalog notes. -/
inductive CompatType where
  | RTSP
  | ONVIFS
deriving DecidableEq, Repr

/-- `getCompatibilityType`: `ONVIF-S` when there is no entry or its notes are
empty, `RTSP` when the lowered notes contain `"rtsp support only"`. -/
def getCompatibilityType (verkadaModel : Option VerkadaModel) : CompatType :=
  match verkadaModel with
  | Option.none => CompatType.ONVIFS
  | some v =>
    if v.notes = [] then CompatType.ONVIFS
    else if strContains (toLowerStr v.notes) (lit "rtsp support only") then CompatType.RTSP
    else CompatType.ONVIFS

/-- The record returned by `findBestMatch`. -/
structure MatchResult where
  matchType : MatchType
  matchedWith : Option Str
  similarity : Option ℚ
  verkadaDetails : Option VerkadaModel
  compatibilityType : Option CompatType
deriving DecidableEq, Repr

/-- `{ matchType: 'none' }` with every optional field absent. -/
def noneResult : MatchResult :=
  { matchType := MatchType.none, matchedWith := Option.none, similarity := Option.none
    verkadaDetails := Option.none, compatibilityType := Option.none }

/-- The mutable candidate state of `findBestMatch`'s potential pass. -/
structure ScanState where
  bestMatch : Str
  bestSimilarity : ℚ
  bestOriginalModel : Str
  bestVerkadaModel : Option VerkadaModel
deriving DecidableEq, Repr

/-- One iteration of the potential pass of `findBestMatch`. -/
def potentialStep (modelLower : Str) (manufacturerNames : List Str)
    (st : ScanState) (verkadaModel : VerkadaModel) : ScanState :=
  let cleanedVerkadaModel := preprocessModelForMatching verkadaModel.modelName manufacturerNames
  let similarity := calculateSimilarity modelLower (toLowerStr cleanedVerkadaModel)
  let isSubset :=
    strContains modelLower (toLowerStr cleanedVerkadaModel) ||
      strContains (toLowerStr cleanedVerkadaModel) modelLower
  if similarity > st.bestSimilarity ∨ (isSubset = true ∧ similarity > (0.5 : ℚ)) then
    { bestMatch := cleanedVerkadaModel, bestSimilarity := similarity
      bestOriginalModel := verkadaModel.modelName, bestVerkadaModel := some verkadaModel }
  else st

/-- The exact-pass predicate: the entry's cleaned, lowered model name equals the
lowered, trimmed input. -/
def exactPred (modelLower : Str) (manufacturerNames : List Str) (v : VerkadaModel) : Bool :=
  toLowerStr (preprocessModelForMatching v.modelName manufacturerNames) = modelLower

/-- The whole potential-pass loop of `findBestMatch`: fold `potentialStep` over
the catalog starting from `('', 0, '', undefined)`. -/
def potentialScan (modelLower : Str) (manufacturerNames : List Str)
    (verkadaModels : List VerkadaModel) : ScanState :=
  verkadaModels.foldl (potentialStep modelLower manufacturerNames)
    { bestMatch := [], bestSimilarity := 0, bestOriginalModel := []
      bestVerkadaModel := Option.none }

/-- `findBestMatch`: empty guard, exact pass over the catalog in order, then the
potential pass with the `> 0.6` acceptance threshold. -/
def findBestMatch (cleanedModel : Str) (manufacturerNames : List Str)
    (verkadaModels : List VerkadaModel) : MatchResult :=
  if cleanedModel = [] ∨ strTrim cleanedModel = [] then noneResult
  else
    let modelLower := strTrim (toLowerStr cleanedModel)
    match verkadaModels.find? (exactPred modelLower manufacturerNames) with
    | some v =>
      { matchType := MatchType.exact, matchedWith := some v.modelName
        similarity := some 1, verkadaDetails := some v
        compatibilityType := some (getCompatibilityType (some v)) }
    | Option.none =>
      let final := potentialScan modelLower manufacturerNames verkadaModels
      if final.bestSimilarity > (0.6 : ℚ) then
        { matchType := MatchType.potential, matchedWith := some final.bestOriginalModel
          similarity := some final.bestSimilarity, verkadaDetails := final.bestVerkadaModel
          compatibilityType := some (getCompatibilityType final.bestVerkadaModel) }
      else noneResult

/-- Insert-or-accumulate on an insertion-ordered association list, the model of
`Map.set(model, (map.get(model) || 0) + v)`. -/
def upsert : List (Str × ℚ) → Str → ℚ → List (Str × ℚ)
  | [], k, v => [(k, v)]
  | (k', v') :: rest, k, v =>
    if k' = k then (k', v' + v) :: rest else (k', v') :: upsert rest k v

/-- The row-aggregation loop of `results`: skip rows whose model cell is empty
or missing, key by the exact cell string, and accumulate the parsed count cell
(when a count column is selected) or `1`.  The number parser
(`parseFloat(cell) || 0` in the source) is abstracted as `parse`. -/
def aggregate (parse : Str → ℚ) (rows : List (List Str)) (modelIdx : Nat)
    (countIdx : Option Nat) : List (Str × ℚ) :=
  rows.foldl
    (fun m row =>
      let model := row.getD modelIdx []
      if model = [] then m
      else
        upsert m model
          (match countIdx with
           | some ci => parse (row.getD ci [])
           | Option.none => 1))
    []

/-- Total count over an aggregation. -/
def sumCounts (l : List (Str × ℚ)) : ℚ := (l.map Prod.snd).sum

/-- Modelled from the spec: the textbook unit-cost Levenshtein distance
(insert/delete/substitute, all cost 1), by structural recursion on the two
strings.  This is the reference definition the DP matrix of the source is
verified against. -/
def levSpec : Str → Str → Nat
  | [], t => t.length
  | _ :: s, [] => s.length + 1
  | a :: s, b :: t =>
    if a = b then levSpec s t
    else 1 + min (levSpec s t) (min (levSpec (a :: s) t) (levSpec s (b :: t)))
termination_by s t => s.length + t.length

/-- The cell recurrence of the source's Levenshtein matrix, written as a
function of the two prefix lengths: `levCell str1 str2 i j = matrix[i][j]`. -/
def levCell (str1 str2 : Str) : Nat → Nat → Nat
  | 0, j => j
  | i + 1, 0 => i + 1
  | i + 1, j + 1 =>
    if str2.getD i ' ' = str1.getD j ' ' then levCell str1 str2 i j
    else
      min (levCell str1 str2 i j + 1)
        (min (levCell str1 str2 (i + 1) j + 1) (levCell str1 str2 i (j + 1) + 1))
termination_by i j => i + j

/-- Modelled from the spec: the tracked best candidate of the potential pass,
as 4.4 describes it — just a best similarity and an optional best entry. -/
structure SpecBest where
  bestSim : ℚ
  bestEntry : Option VerkadaModel
deriving DecidableEq, Repr

/-- Modelled from the spec: one step of the potential-pass scan as the spec
words it — "replace current best when `similarity > bestSimilarity`, OR when
`containment AND similarity > 0.5`"; in either case the tracked similarity
becomes the new entry's similarity. -/
def specPotentialStep (modelLower : Str) (manufacturerNames : List Str)
    (st : SpecBest) (entry : VerkadaModel) : SpecBest :=
  let cleanedEntry := toLowerStr (preprocessModelForMatching entry.modelName manufacturerNames)
  let similarity := calculateSimilarity modelLower cleanedEntry
  let containment := strContains modelLower cleanedEntry || strContains cleanedEntry modelLower
  if similarity > st.bestSim ∨ (containment = true ∧ similarity > (0.5 : ℚ)) then
    { bestSim := similarity, bestEntry := some entry }
  else st

/-- The model name of the tracked best entry, empty when there is none;
mirrors the `bestOriginalModel` accumulator of the source. -/
def specName (o : Option VerkadaModel) : Str :=
  match o with
  | Option.none => []
  | some e => e.modelName

example : tokenize (lit "  ab  cd ") = [lit "ab", lit "cd"] := by decide
example : splitOn '.' (lit "1.2.3.4") = [lit "1", lit "2", lit "3", lit "4"] := by decide
example : strContains (lit "abcdef") (lit "cde") = true := by decide
example : strTrim (lit "  ab ") = lit "ab" := by decide
example : isIPv4 (lit "192.168.1.5") = true := by decide
example : isIPv4 (lit "256.1.1.1") = false := by decide
example : isIPv6 (lit "fe80::1") = false := by decide
example : isIPv6 (lit "2001:0db8:0000:0000:0000:0000:0000:0001") = true := by decide
example : isMACToken (lit "00:1a:2b:3c:4d:5e") = true := by decide
example : isMACToken (lit "001a.2b3c.4d5e") = true := by decide
example : isDateToken (lit "2023-04-01") = true := by decide
example : isDateToken (lit "12/31/99") = true := by decide
example : isPunctToken (lit "!!!") = true := by decide
example : isPunctToken (lit "---") = false := by decide
example :
    cleanModelData (lit "AXS-4000 192.168.1.5 2023-04-01 Axis") [lit "Axis"] =
      { original := lit "AXS-4000 192.168.1.5 2023-04-01 Axis"
        cleaned := lit "AXS-4000"
        removedElements :=
          [lit "IP: 192.168.1.5", lit "Date: 2023-04-01", lit "Manufacturer: Axis"] } := by
  decide

example : levenshteinDistance (lit "kitten") (lit "sitting") = 3 := by decide

example :
    (findBestMatch (lit "P3245LVE") [lit "Axis"]
        [⟨lit "Axis", lit "P3245-LVE", [], []⟩]).matchType = MatchType.potential ∧
    (findBestMatch (lit "P3245LVE") [lit "Axis"]
        [⟨lit "Axis", lit "P3245-LVE", [], []⟩]).matchedWith = some (lit "P3245-LVE") := by
  with_unfolding_all decide

example :
    findBestMatch (lit "DS-2CD2143G0-I") []
        [⟨lit "Hikvision", lit "DS-2CD2143G0-I", [], lit "RTSP support only"⟩] =
      { matchType := MatchType.exact, matchedWith := some (lit "DS-2CD2143G0-I")
        similarity := some 1, verkadaDetails := some ⟨lit "Hikvision", lit "DS-2CD2143G0-I", [], lit "RTSP support only"⟩
        compatibilityType := some CompatType.RTSP } := by
  with_unfolding_all decide

example :
    sumCounts (aggregate (fun _ => 0) [[lit "CamA", lit "3"], [lit "CamA", lit "2"]] 0 Option.none) = 2 := by
  with_unfolding_all decide

/-! ### Tokenizer lemmas -/

theorem dropWhile_ws_eq_self {l : Str} (h : ∀ c ∈ l, c.isWhitespace = false) :
    l.dropWhile Char.isWhitespace = l := by
  cases l with
  | nil => rfl
  | cons a l => simp [List.dropWhile_cons, h a (by simp)]

theorem strTrim_eq_of_no_ws {t : Str} (h : ∀ c ∈ t, c.isWhitespace = false) :
    strTrim t = t := by
  rw [strTrim, dropWhile_ws_eq_self h,
    dropWhile_ws_eq_self (fun c hc => h c (List.mem_reverse.mp hc)), List.reverse_reverse]

theorem tokenizeAux_wf :
    ∀ (s acc : Str), (∀ c ∈ acc, c.isWhitespace = false) →
      ∀ t ∈ tokenizeAux s acc, t ≠ [] ∧ ∀ c ∈ t, c.isWhitespace = false := by
  intro s
  induction s with
  | nil =>
    intro acc hacc t ht
    by_cases h : acc = []
    · simp [tokenizeAux, h] at ht
    · simp [tokenizeAux, h] at ht
      subst ht
      exact ⟨by simpa using h, fun c hc => hacc c (List.mem_reverse.mp hc)⟩
  | cons a s ih =>
    intro acc hacc t ht
    by_cases hws : a.isWhitespace
    · by_cases h : acc = []
      · rw [tokenizeAux] at ht
        simp only [hws, if_true, h, if_pos rfl] at ht
        exact ih [] (by simp) t ht
      · rw [tokenizeAux] at ht
        simp only [hws, if_true, if_neg h] at ht
        rcases List.mem_cons.mp ht with h1 | h1
        · subst h1
          exact ⟨by simpa using h, fun c hc => hacc c (List.mem_reverse.mp hc)⟩
        · exact ih [] (by simp) t h1
    · rw [tokenizeAux] at ht
      simp only [hws, if_false] at ht
      refine ih (a :: acc) ?_ t ht
      intro c hc
      rcases List.mem_cons.mp hc with h1 | h1
      · subst h1; simpa using hws
      · exact hacc c h1

theorem tokenize_wf (s : Str) : ∀ t ∈ tokenize s, t ≠ [] ∧ ∀ c ∈ t, c.isWhitespace = false :=
  tokenizeAux_wf s [] (by simp)

theorem tokenizeAux_append_nonws :
    ∀ (t r acc : Str), (∀ c ∈ t, c.isWhitespace = false) →
      tokenizeAux (t ++ r) acc = tokenizeAux r (t.reverse ++ acc) := by
  intro t
  induction t with
  | nil => intro r acc _; simp
  | cons c cs ih =>
    intro r acc h
    have hc : c.isWhitespace = false := h c (by simp)
    rw [List.cons_append, tokenizeAux]
    simp only [hc, if_false]
    rw [ih r (c :: acc) (fun d hd => h d (by simp [hd]))]
    simp

theorem tokenize_joinSp :
    ∀ (l : List Str), (∀ t ∈ l, t ≠ [] ∧ ∀ c ∈ t, c.isWhitespace = false) →
      tokenize (joinSp l) = l := by
  intro l
  induction l with
  | nil => intro _; rfl
  | cons t ts ih =>
    intro h
    obtain ⟨htne, htws⟩ := h t (by simp)
    cases ts with
    | nil =>
      show tokenize (joinSp [t]) = [t]
      rw [joinSp, tokenize]
      have := tokenizeAux_append_nonws t [] [] htws
      simp only [List.append_nil] at this
      rw [this, tokenizeAux]
      simp [htne]
    | cons t2 ts2 =>
      show tokenize (t ++ ' ' :: joinSp (t2 :: ts2)) = t :: t2 :: ts2
      rw [tokenize, tokenizeAux_append_nonws t (' ' :: joinSp (t2 :: ts2)) [] htws]
      rw [tokenizeAux]
      have hrev : t.reverse ++ [] ≠ [] := by simpa using htne
      simp only [show (' ').isWhitespace = true from rfl, if_true, if_neg hrev]
      have : tokenizeAux (joinSp (t2 :: ts2)) [] = t2 :: ts2 :=
        ih fun u hu => h u (by simp [hu])
      rw [this]
      simp

theorem joinSp_head_nonws :
    ∀ (l : List Str), (∀ t ∈ l, t ≠ [] ∧ ∀ c ∈ t, c.isWhitespace = false) → l ≠ [] →
      ∃ c cs, joinSp l = c :: cs ∧ c.isWhitespace = false := by
  intro l h hne
  cases l with
  | nil => exact absurd rfl hne
  | cons t ts =>
    obtain ⟨htne, htws⟩ := h t (by simp)
    obtain ⟨c, cs, hc⟩ := List.exists_cons_of_ne_nil htne
    have hhead : ∃ rest, joinSp (t :: ts) = t ++ rest := by
      cases ts with
      | nil => exact ⟨[], by simp [joinSp]⟩
      | cons t2 ts2 => exact ⟨' ' :: joinSp (t2 :: ts2), rfl⟩
    obtain ⟨rest, hrest⟩ := hhead
    refine ⟨c, cs ++ rest, ?_, htws c (by simp [hc])⟩
    rw [hrest, hc]; simp

theorem joinSp_last_nonws :
    ∀ (l : List Str), (∀ t ∈ l, t ≠ [] ∧ ∀ c ∈ t, c.isWhitespace = false) → l ≠ [] →
      ∃ c cs, (joinSp l).reverse = c :: cs ∧ c.isWhitespace = false := by
  intro l
  induction l with
  | nil => intro _ hne; exact absurd rfl hne
  | cons t ts ih =>
    intro h _
    obtain ⟨htne, htws⟩ := h t (by simp)
    cases ts with
    | nil =>
      obtain ⟨c, cs, hc⟩ := List.exists_cons_of_ne_nil (by simpa using htne : t.reverse ≠ [])
      refine ⟨c, cs, by simpa [joinSp] using hc, ?_⟩
      exact htws c (List.mem_reverse.mp (by simp [hc]))
    | cons t2 ts2 =>
      obtain ⟨c, cs, hc, hcws⟩ := ih (fun u hu => h u (by simp [hu])) (by simp)
      refine ⟨c, cs ++ ' ' :: t.reverse, ?_, hcws⟩
      show (t ++ ' ' :: joinSp (t2 :: ts2)).reverse = c :: (cs ++ ' ' :: t.reverse)
      rw [List.reverse_append]
      simp [hc]

theorem strTrim_joinSp (l : List Str)
    (h : ∀ t ∈ l, t ≠ [] ∧ ∀ c ∈ t, c.isWhitespace = false) :
    strTrim (joinSp l) = joinSp l := by
  cases l with
  | nil => rfl
  | cons t ts =>
    obtain ⟨c, cs, hc, hcws⟩ := joinSp_head_nonws (t :: ts) h (by simp)
    obtain ⟨d, ds, hd, hdws⟩ := joinSp_last_nonws (t :: ts) h (by simp)
    have h1 : List.dropWhile Char.isWhitespace (joinSp (t :: ts)) = joinSp (t :: ts) := by
      rw [hc, List.dropWhile_cons, hcws]; simp
    have h2 : List.dropWhile Char.isWhitespace (joinSp (t :: ts)).reverse =
        (joinSp (t :: ts)).reverse := by
      rw [hd, List.dropWhile_cons, hdws]; simp
    rw [strTrim, h1, h2, List.reverse_reverse]

theorem splitOnAux_chars (sep : Char) :
    ∀ (s acc p : Str), p ∈ splitOnAux sep s acc → ∀ c ∈ p, c ∈ s ∨ c ∈ acc := by
  intro s
  induction s with
  | nil =>
    intro acc p hp c hc
    simp [splitOnAux] at hp
    subst hp
    exact Or.inr (List.mem_reverse.mp hc)
  | cons a cs ih =>
    intro acc p hp c hc
    by_cases ha : a = sep
    · rw [splitOnAux] at hp
      simp only [ha, if_pos rfl] at hp
      rcases List.mem_cons.mp hp with h1 | h1
      · subst h1; exact Or.inr (List.mem_reverse.mp hc)
      · rcases ih [] p h1 c hc with h2 | h2
        · exact Or.inl (by simp [h2])
        · simp at h2
    · rw [splitOnAux] at hp
      simp only [ha, if_neg ha] at hp
      rcases ih (a :: acc) p hp c hc with h2 | h2
      · exact Or.inl (by simp [h2])
      · rcases List.mem_cons.mp h2 with h3 | h3
        · exact Or.inl (by simp [h3])
        · exact Or.inr h3

theorem splitOn_chars (sep : Char) (s p : Str) (hp : p ∈ splitOn sep s) :
    ∀ c ∈ p, c ∈ s := by
  intro c hc
  rcases splitOnAux_chars sep s [] p hp c hc with h | h
  · exact h
  · simp at h

/-! ### Levenshtein lemmas -/

theorem levSpec_nil_left (t : Str) : levSpec [] t = t.length := by
  simp [levSpec]

theorem levSpec_nil_right : ∀ s : Str, levSpec s [] = s.length := by
  intro s; cases s <;> simp [levSpec]

theorem levSpec_cons_cons (a b : Char) (s t : Str) :
    levSpec (a :: s) (b :: t) =
      if a = b then levSpec s t
      else 1 + min (levSpec s t) (min (levSpec (a :: s) t) (levSpec s (b :: t))) := by
  rw [levSpec]


set_option maxHeartbeats 1000000 in
theorem levSpec_concat_concat (a b : Char) :
    ∀ (s t : Str),
      levSpec (s ++ [a]) (t ++ [b]) =
        if a = b then levSpec s t
        else 1 + min (levSpec s t) (min (levSpec (s ++ [a]) t) (levSpec s (t ++ [b]))) := by
  suffices main : ∀ (n : Nat) (s t : Str), s.length + t.length ≤ n →
      levSpec (s ++ [a]) (t ++ [b]) =
        if a = b then levSpec s t
        else 1 + min (levSpec s t) (min (levSpec (s ++ [a]) t) (levSpec s (t ++ [b]))) by
    intro s t
    exact main (s.length + t.length) s t le_rfl
  intro n
  induction n with
  | zero =>
    intro s t hst
    have hs : s = [] := List.eq_nil_of_length_eq_zero (by omega)
    have ht : t = [] := List.eq_nil_of_length_eq_zero (by omega)
    subst hs; subst ht
    by_cases hab : a = b <;> simp [levSpec, hab]
  | succ n ih =>
    intro s t hst
    cases s with
    | nil =>
      cases t with
      | nil => by_cases hab : a = b <;> simp [levSpec, hab]
      | cons y t' =>
        have ih0 := ih [] t' (by simp only [List.length_nil, List.length_cons] at hst ⊢; omega)
        simp only [List.nil_append] at ih0
        simp only [List.nil_append, List.cons_append]
        simp only [levSpec_cons_cons, levSpec_nil_left, List.length_append,
          List.length_cons, List.length_nil]
        rw [ih0]
        simp only [levSpec_nil_left, List.length_append, List.length_cons, List.length_nil]
        split_ifs <;> omega
    | cons x s' =>
      cases t with
      | nil =>
        have ih0 := ih s' [] (by simp only [List.length_nil, List.length_cons] at hst ⊢; omega)
        simp only [List.nil_append] at ih0
        simp only [List.nil_append, List.cons_append]
        simp only [levSpec_cons_cons, levSpec_nil_right, levSpec_nil_left,
          List.length_append, List.length_cons, List.length_nil]
        rw [ih0]
        simp only [levSpec_nil_right, levSpec_nil_left, List.length_append,
          List.length_cons, List.length_nil]
        split_ifs <;> omega
      | cons y t' =>
        have ih0 := ih s' t' (by simp only [List.length_cons] at hst ⊢; omega)
        have ih1 := ih (x :: s') t' (by simp only [List.length_cons] at hst ⊢; omega)
        have ih2 := ih s' (y :: t') (by simp only [List.length_cons] at hst ⊢; omega)
        simp only [List.cons_append] at ih0 ih1 ih2 ⊢
        simp only [levSpec_cons_cons]
        rw [ih0, ih1, ih2]
        split_ifs
        any_goals rfl
        have e1 : ∀ u v : Nat, min (1 + u) (1 + v) = 1 + min u v := fun u v => by omega
        rw [e1, e1, e1, e1]
        congr 1
        congr 1
        ac_rfl

theorem levSpec_reverse : ∀ (s t : Str), levSpec s.reverse t.reverse = levSpec s t := by
  suffices main : ∀ (n : Nat) (s t : Str), s.length + t.length ≤ n →
      levSpec s.reverse t.reverse = levSpec s t by
    intro s t
    exact main (s.length + t.length) s t le_rfl
  intro n
  induction n with
  | zero =>
    intro s t hst
    have hs : s = [] := List.eq_nil_of_length_eq_zero (by omega)
    have ht : t = [] := List.eq_nil_of_length_eq_zero (by omega)
    subst hs; subst ht; rfl
  | succ n ih =>
    intro s t hst
    cases s with
    | nil => simp [levSpec_nil_left]
    | cons x s' =>
      cases t with
      | nil => simp [levSpec_nil_right]
      | cons y t' =>
        rw [List.reverse_cons, List.reverse_cons, levSpec_concat_concat,
          ← List.reverse_cons x s', ← List.reverse_cons y t',
          ih s' t' (by simp only [List.length_cons] at hst ⊢; omega),
          ih (x :: s') t' (by simp only [List.length_cons] at hst ⊢; omega),
          ih s' (y :: t') (by simp only [List.length_cons] at hst ⊢; omega),
          levSpec_cons_cons]

theorem levSpec_comm : ∀ (s t : Str), levSpec s t = levSpec t s := by
  suffices main : ∀ (n : Nat) (s t : Str), s.length + t.length ≤ n →
      levSpec s t = levSpec t s by
    intro s t
    exact main (s.length + t.length) s t le_rfl
  intro n
  induction n with
  | zero =>
    intro s t hst
    have hs : s = [] := List.eq_nil_of_length_eq_zero (by omega)
    have ht : t = [] := List.eq_nil_of_length_eq_zero (by omega)
    subst hs; subst ht; rfl
  | succ n ih =>
    intro s t hst
    cases s with
    | nil => simp [levSpec_nil_left, levSpec_nil_right]
    | cons x s' =>
      cases t with
      | nil => simp [levSpec_nil_left, levSpec_nil_right]
      | cons y t' =>
        rw [levSpec_cons_cons, levSpec_cons_cons,
          ih s' t' (by simp only [List.length_cons] at hst ⊢; omega),
          ih (x :: s') t' (by simp only [List.length_cons] at hst ⊢; omega),
          ih s' (y :: t') (by simp only [List.length_cons] at hst ⊢; omega)]
        by_cases hxy : x = y
        · simp [hxy]
        · have hyx : ¬y = x := fun h => hxy h.symm
          simp only [hxy, hyx, if_false]
          omega

theorem levSpec_le_max : ∀ (s t : Str), levSpec s t ≤ max s.length t.length := by
  suffices main : ∀ (n : Nat) (s t : Str), s.length + t.length ≤ n →
      levSpec s t ≤ max s.length t.length by
    intro s t
    exact main (s.length + t.length) s t le_rfl
  intro n
  induction n with
  | zero =>
    intro s t hst
    have hs : s = [] := List.eq_nil_of_length_eq_zero (by omega)
    have ht : t = [] := List.eq_nil_of_length_eq_zero (by omega)
    subst hs; subst ht; simp [levSpec]
  | succ n ih =>
    intro s t hst
    cases s with
    | nil => simp [levSpec_nil_left]
    | cons x s' =>
      cases t with
      | nil => simp [levSpec_nil_right]
      | cons y t' =>
        have h0 := ih s' t' (by simp only [List.length_cons] at hst ⊢; omega)
        rw [levSpec_cons_cons]
        by_cases hxy : x = y
        · simp only [List.length_cons]
          rw [if_pos hxy]
          omega
        · simp only [List.length_cons]
          rw [if_neg hxy]
          omega

theorem levCell_zero_left (str1 str2 : Str) (j : Nat) : levCell str1 str2 0 j = j := by
  simp [levCell]

theorem levCell_succ_zero (str1 str2 : Str) (i : Nat) : levCell str1 str2 (i + 1) 0 = i + 1 := by
  simp [levCell]

theorem levCell_succ_succ (str1 str2 : Str) (i j : Nat) :
    levCell str1 str2 (i + 1) (j + 1) =
      if str2.getD i ' ' = str1.getD j ' ' then levCell str1 str2 i j
      else
        min (levCell str1 str2 i j + 1)
          (min (levCell str1 str2 (i + 1) j + 1) (levCell str1 str2 i (j + 1) + 1)) := by
  rw [levCell]

theorem take_succ_getD (l : Str) : ∀ (i : Nat), i < l.length →
    l.take (i + 1) = l.take i ++ [l.getD i ' '] := by
  induction l with
  | nil => intro i hi; simp at hi
  | cons a l ih =>
    intro i hi
    cases i with
    | zero => simp
    | succ i =>
      simp only [List.take_succ_cons, List.getD_cons_succ]
      rw [ih i (by simpa using hi)]
      simp

theorem levCell_eq_levSpec (str1 str2 : Str) :
    ∀ (i j : Nat), i ≤ str2.length → j ≤ str1.length →
      levCell str1 str2 i j = levSpec ((str2.take i).reverse) ((str1.take j).reverse) := by
  suffices main : ∀ (n i j : Nat), i + j ≤ n → i ≤ str2.length → j ≤ str1.length →
      levCell str1 str2 i j = levSpec ((str2.take i).reverse) ((str1.take j).reverse) by
    intro i j hi hj
    exact main (i + j) i j le_rfl hi hj
  intro n
  induction n with
  | zero =>
    intro i j hij hi hj
    have h1 : i = 0 := by omega
    have h2 : j = 0 := by omega
    subst h1; subst h2
    simp [levCell_zero_left, levSpec]
  | succ n ih =>
    intro i j hij hi hj
    match i, j with
    | 0, j =>
      rw [levCell_zero_left]
      simp only [List.take_zero, List.reverse_nil, levSpec_nil_left, List.length_reverse,
        List.length_take]
      omega
    | i + 1, 0 =>
      rw [levCell_succ_zero]
      simp only [List.take_zero, List.reverse_nil, levSpec_nil_right, List.length_reverse,
        List.length_take]
      omega
    | i + 1, j + 1 =>
      have hi' : i < str2.length := by omega
      have hj' : j < str1.length := by omega
      rw [take_succ_getD str2 i hi', take_succ_getD str1 j hj',
        List.reverse_append, List.reverse_append]
      simp only [List.reverse_singleton, List.singleton_append]
      rw [levSpec_cons_cons, levCell_succ_succ]
      rw [ih i j (by omega) (by omega) (by omega),
        ih (i + 1) j (by omega) (by omega) (by omega),
        ih i (j + 1) (by omega) (by omega) (by omega)]
      rw [take_succ_getD str2 i hi', take_succ_getD str1 j hj',
        List.reverse_append, List.reverse_append]
      simp only [List.reverse_singleton, List.singleton_append]
      by_cases heq : str2.getD i ' ' = str1.getD j ' '
      · rw [if_pos heq, if_pos heq]
      · rw [if_neg heq, if_neg heq]
        omega

theorem getD_of_drop (l : Str) : ∀ (j : Nat) (c : Char) (rest : Str),
    l.drop j = c :: rest → l.getD j ' ' = c := by
  induction l with
  | nil => intro j c rest h; simp at h
  | cons a l ih =>
    intro j c rest h
    cases j with
    | zero =>
      simp only [List.drop_zero] at h
      rw [h]
      rfl
    | succ j =>
      simp only [List.drop_succ_cons] at h
      simpa using ih j c rest h

theorem drop_succ_of_drop (l : Str) (j : Nat) (c : Char) (rest : Str)
    (h : l.drop j = c :: rest) : l.drop (j + 1) = rest := by
  have h1 : l.drop (j + 1) = (l.drop j).drop 1 := by
    rw [List.drop_drop]
  rw [h1, h]
  rfl

theorem lt_length_of_drop (l : Str) (j : Nat) (c : Char) (rest : Str)
    (h : l.drop j = c :: rest) : j < l.length := by
  have := congrArg List.length h
  simp only [List.length_drop, List.length_cons] at this
  omega

theorem levNextRowAux_cons (c2 c1 : Char) (cs : Str) (diag : Nat) (prevRest : List Nat)
    (left : Nat) :
    levNextRowAux c2 (c1 :: cs) (diag :: prevRest) left =
      (if c2 = c1 then diag
        else min (diag + 1) (min (left + 1) (prevRest.headD 0 + 1))) ::
      levNextRowAux c2 cs prevRest
        (if c2 = c1 then diag
          else min (diag + 1) (min (left + 1) (prevRest.headD 0 + 1))) := rfl

theorem levNextRowAux_spec (str1 str2 : Str) (k : Nat) :
    ∀ (cs : Str) (j0 : Nat), str1.drop j0 = cs →
      levNextRowAux (str2.getD k ' ') cs
          ((List.range' j0 (cs.length + 1)).map (levCell str1 str2 k))
          (levCell str1 str2 (k + 1) j0)
        = (List.range' (j0 + 1) cs.length).map (levCell str1 str2 (k + 1)) := by
  intro cs
  induction cs with
  | nil =>
    intro j0 _
    simp [levNextRowAux, List.range'_succ]
  | cons c1 cs' ih =>
    intro j0 hdrop
    have hc1 : str1.getD j0 ' ' = c1 := getD_of_drop str1 j0 c1 cs' hdrop
    have hdrop' : str1.drop (j0 + 1) = cs' := drop_succ_of_drop str1 j0 c1 cs' hdrop
    rw [List.length_cons]
    rw [List.range'_succ, List.map_cons]
    rw [levNextRowAux_cons]
    have hhead : ((List.range' (j0 + 1) (cs'.length + 1)).map (levCell str1 str2 k)).headD 0
        = levCell str1 str2 k (j0 + 1) := by
      rw [List.range'_succ, List.map_cons]
      rfl
    have hcell : (if str2.getD k ' ' = c1 then levCell str1 str2 k j0
        else min (levCell str1 str2 k j0 + 1)
          (min (levCell str1 str2 (k + 1) j0 + 1)
            (((List.range' (j0 + 1) (cs'.length + 1)).map (levCell str1 str2 k)).headD 0 + 1)))
        = levCell str1 str2 (k + 1) (j0 + 1) := by
      rw [hhead, levCell_succ_succ, hc1]
    rw [hcell]
    rw [ih (j0 + 1) hdrop']
    rw [List.range'_succ, List.map_cons]

theorem levFold_spec (str1 str2 : Str) :
    ∀ (suffix : Str) (k : Nat), k ≤ str2.length → str2.drop k = suffix →
      (suffix.foldl
          (fun (st : List Nat × Nat) c2 => (levNextRow str1 st.1 st.2 c2, st.2 + 1))
          ((List.range' 0 (str1.length + 1)).map (levCell str1 str2 k), k + 1)).1
        = (List.range' 0 (str1.length + 1)).map (levCell str1 str2 str2.length) := by
  intro suffix
  induction suffix with
  | nil =>
    intro k hk hdrop
    have hlen : str2.length ≤ k := by
      have := congrArg List.length hdrop
      simp only [List.length_drop, List.length_nil] at this
      omega
    have : k = str2.length := by omega
    subst this
    rfl
  | cons c2 rest ih =>
    intro k hk hdrop
    have hck : str2.getD k ' ' = c2 := getD_of_drop str2 k c2 rest hdrop
    have hk' : k < str2.length := lt_length_of_drop str2 k c2 rest hdrop
    have hdrop' : str2.drop (k + 1) = rest := drop_succ_of_drop str2 k c2 rest hdrop
    rw [List.foldl_cons]
    have hstep :
        levNextRow str1 ((List.range' 0 (str1.length + 1)).map (levCell str1 str2 k))
            (k + 1) c2
          = (List.range' 0 (str1.length + 1)).map (levCell str1 str2 (k + 1)) := by
      rw [levNextRow]
      have h0 := levNextRowAux_spec str1 str2 k str1 0 (by simp)
      rw [levCell_succ_zero] at h0
      rw [← hck, h0]
      rw [List.range'_succ, List.map_cons, levCell_succ_zero]
    rw [hstep]
    exact ih (k + 1) (by omega) hdrop'

theorem levenshteinDistance_eq_levSpec (str1 str2 : Str) :
    levenshteinDistance str1 str2 = levSpec str1 str2 := by
  have hinit : List.range (str1.length + 1)
      = (List.range' 0 (str1.length + 1)).map (levCell str1 str2 0) := by
    rw [List.range_eq_range']
    have h : (List.range' 0 (str1.length + 1)).map (levCell str1 str2 0)
        = (List.range' 0 (str1.length + 1)).map (fun a => a) :=
      List.map_congr_left (fun a _ => by rw [levCell_zero_left])
    rw [h]
    simp
  have hfold := levFold_spec str1 str2 str2 0 (by omega) rfl
  norm_num at hfold
  simp only [levenshteinDistance]
  rw [hinit, hfold]
  rw [List.range'_concat]
  simp only [List.map_append, List.map_cons, List.map_nil, List.getLastD_concat]
  have hn : 0 + 1 * str1.length = str1.length := by omega
  rw [hn]
  rw [levCell_eq_levSpec str1 str2 str2.length str1.length le_rfl le_rfl]
  rw [List.take_length, List.take_length, levSpec_reverse]
  exact levSpec_comm str2 str1

theorem toLowerStr_length (s : Str) : (toLowerStr s).length = s.length := by
  simp [toLowerStr]

theorem calculateSimilarity_eq (s1 s2 : Str) :
    calculateSimilarity s1 s2 =
      (if max s1.length s2.length = 0 then 1
       else (((max s1.length s2.length : ℕ) : ℚ) - (levSpec (toLowerStr s1) (toLowerStr s2) : ℚ))
         / ((max s1.length s2.length : ℕ) : ℚ)) := by
  by_cases hgt : s1.length > s2.length
  · have hmax : max s1.length s2.length = s1.length := max_eq_left (by omega)
    rw [hmax]
    simp only [calculateSimilarity, if_pos hgt, levenshteinDistance_eq_levSpec]
  · have hmax : max s1.length s2.length = s2.length := max_eq_right (by omega)
    rw [hmax]
    simp only [calculateSimilarity, if_neg hgt, levenshteinDistance_eq_levSpec]
    rw [levSpec_comm (toLowerStr s2) (toLowerStr s1)]

theorem levSpec_le_max_len (s1 s2 : Str) :
    levSpec (toLowerStr s1) (toLowerStr s2) ≤ max s1.length s2.length := by
  have h := levSpec_le_max (toLowerStr s1) (toLowerStr s2)
  rwa [toLowerStr_length, toLowerStr_length] at h

theorem calculateSimilarity_nonneg (s1 s2 : Str) : 0 ≤ calculateSimilarity s1 s2 := by
  rw [calculateSimilarity_eq]
  by_cases h0 : max s1.length s2.length = 0
  · rw [if_pos h0]; norm_num
  · rw [if_neg h0]
    apply div_nonneg
    · have hd : (levSpec (toLowerStr s1) (toLowerStr s2) : ℚ) ≤
          ((max s1.length s2.length : Nat) : ℚ) := by
        exact_mod_cast levSpec_le_max_len s1 s2
      linarith
    · exact_mod_cast Nat.zero_le _

theorem calculateSimilarity_le_one (s1 s2 : Str) : calculateSimilarity s1 s2 ≤ 1 := by
  rw [calculateSimilarity_eq]
  by_cases h0 : max s1.length s2.length = 0
  · rw [if_pos h0]
  · rw [if_neg h0]
    have hpos : (0 : ℚ) < ((max s1.length s2.length : Nat) : ℚ) := by
      exact_mod_cast Nat.pos_of_ne_zero h0
    rw [div_le_one hpos]
    have : (0 : ℚ) ≤ (levSpec (toLowerStr s1) (toLowerStr s2) : ℚ) := by positivity
    linarith

/-- C4: `calculateSimilarity` returns `(max(len1,len2) − d) / max(len1,len2)` where
`d` is the unit-cost Levenshtein distance (`levSpec`) between the case-lowered
strings, returns `1.0` when the longer string is empty (in particular when both
are empty), and always lies in `[0,1]`. -/
theorem calculateSimilarity_levenshtein_ratio (s1 s2 : Str) :
    calculateSimilarity s1 s2 =
      (if max s1.length s2.length = 0 then 1
       else (((max s1.length s2.length : ℕ) : ℚ) - (levSpec (toLowerStr s1) (toLowerStr s2) : ℚ))
         / ((max s1.length s2.length : ℕ) : ℚ))
    ∧ 0 ≤ calculateSimilarity s1 s2 ∧ calculateSimilarity s1 s2 ≤ 1 :=
  ⟨calculateSimilarity_eq s1 s2, calculateSimilarity_nonneg s1 s2,
    calculateSimilarity_le_one s1 s2⟩

/-! ### Matcher lemmas -/

theorem potentialStep_correspondence (modelLower : Str) (vocab : List Str)
    (stc : ScanState) (sts : SpecBest) (e : VerkadaModel)
    (h1 : stc.bestSimilarity = sts.bestSim)
    (h2 : stc.bestVerkadaModel = sts.bestEntry)
    (h3 : stc.bestOriginalModel = specName sts.bestEntry) :
    (potentialStep modelLower vocab stc e).bestSimilarity
        = (specPotentialStep modelLower vocab sts e).bestSim ∧
      (potentialStep modelLower vocab stc e).bestVerkadaModel
        = (specPotentialStep modelLower vocab sts e).bestEntry ∧
      (potentialStep modelLower vocab stc e).bestOriginalModel
        = specName (specPotentialStep modelLower vocab sts e).bestEntry := by
  simp only [potentialStep, specPotentialStep, h1]
  split_ifs
  · exact ⟨rfl, rfl, rfl⟩
  · exact ⟨h1, h2, h3⟩

theorem potentialScan_correspondence (modelLower : Str) (vocab : List Str) :
    ∀ (catalog : List VerkadaModel) (stc : ScanState) (sts : SpecBest),
      stc.bestSimilarity = sts.bestSim →
      stc.bestVerkadaModel = sts.bestEntry →
      stc.bestOriginalModel = specName sts.bestEntry →
      (catalog.foldl (potentialStep modelLower vocab) stc).bestSimilarity
          = (catalog.foldl (specPotentialStep modelLower vocab) sts).bestSim ∧
        (catalog.foldl (potentialStep modelLower vocab) stc).bestVerkadaModel
          = (catalog.foldl (specPotentialStep modelLower vocab) sts).bestEntry ∧
        (catalog.foldl (potentialStep modelLower vocab) stc).bestOriginalModel
          = specName (catalog.foldl (specPotentialStep modelLower vocab) sts).bestEntry := by
  intro catalog
  induction catalog with
  | nil => intro stc sts h1 h2 h3; exact ⟨h1, h2, h3⟩
  | cons e rest ih =>
    intro stc sts h1 h2 h3
    simp only [List.foldl_cons]
    obtain ⟨g1, g2, g3⟩ := potentialStep_correspondence modelLower vocab stc sts e h1 h2 h3
    exact ih (potentialStep modelLower vocab stc e) (specPotentialStep modelLower vocab sts e)
      g1 g2 g3

/-- C1: for every vocabulary, catalog and cleaned non-empty input with no exact
match, `findBestMatch`'s potential pass is exactly the scan the spec describes:
a single catalog-order fold over one tracked best candidate that starts at
similarity `0` with no entry (`specPotentialStep`'s initial state) and replaces
the tracked best at an entry exactly when the entry's similarity is strictly
above the tracked best similarity, or when one cleaned string is a
case-insensitive substring of the other and the similarity is strictly above
`0.5` — in which case the tracked similarity becomes the entry's (possibly
lower) similarity; afterwards the `> 0.6` threshold decides between a potential
result carrying the tracked candidate and a none result. -/
theorem findBestMatch_potential_pass_is_spec_scan (input : Str) (vocab : List Str)
    (catalog : List VerkadaModel)
    (h1 : ¬(input = [] ∨ strTrim input = []))
    (h2 : catalog.find? (exactPred (strTrim (toLowerStr input)) vocab) = Option.none) :
    findBestMatch input vocab catalog =
      (let st := catalog.foldl (specPotentialStep (strTrim (toLowerStr input)) vocab)
        { bestSim := 0, bestEntry := Option.none }
       if st.bestSim > (0.6 : ℚ) then
         { matchType := MatchType.potential, matchedWith := some (specName st.bestEntry)
           similarity := some st.bestSim, verkadaDetails := st.bestEntry
           compatibilityType := some (getCompatibilityType st.bestEntry) }
       else noneResult) := by
  obtain ⟨g1, g2, g3⟩ := potentialScan_correspondence (strTrim (toLowerStr input)) vocab catalog
    { bestMatch := [], bestSimilarity := 0, bestOriginalModel := []
      bestVerkadaModel := Option.none }
    { bestSim := 0, bestEntry := Option.none } rfl rfl rfl
  simp only [findBestMatch, if_neg h1, h2, potentialScan]
  rw [g1, g2, g3]

/-- C2: for every vocabulary and catalog, when the cleaned non-empty input
equals, case-insensitively, the cleaned `modelName` of at least one catalog
entry (`find?` returns the first such entry `e0` in catalog order),
`findBestMatch` returns `matchType = exact` with `similarity = 1.0`,
`matchedWith` the original (uncleaned) `modelName` of that first entry, the
entry itself as reference, and its compatibility type. -/
theorem findBestMatch_exact_first (input : Str) (vocab : List Str)
    (catalog : List VerkadaModel) (e0 : VerkadaModel)
    (h1 : ¬(input = [] ∨ strTrim input = []))
    (h2 : catalog.find? (exactPred (strTrim (toLowerStr input)) vocab) = some e0) :
    findBestMatch input vocab catalog =
      { matchType := MatchType.exact, matchedWith := some e0.modelName
        similarity := some 1, verkadaDetails := some e0
        compatibilityType := some (getCompatibilityType (some e0)) } := by
  simp only [findBestMatch, if_neg h1, h2]

/-- C3 (amended): absent an exact match, the matcher returns
`matchType = potential` iff the tracked best similarity after the catalog scan
is strictly greater than `0.6`; a best similarity of exactly `0.6` never yields
potential, and a tracked best similarity of at least `0.60001` always does.
(The original claim's universal statement over any single entry reaching
`0.60001` is refuted separately: a later containment-rule entry can lower the
tracked best below the threshold.) -/
theorem findBestMatch_potential_iff_threshold (input : Str) (vocab : List Str)
    (catalog : List VerkadaModel)
    (h1 : ¬(input = [] ∨ strTrim input = []))
    (h2 : catalog.find? (exactPred (strTrim (toLowerStr input)) vocab) = Option.none) :
    ((findBestMatch input vocab catalog).matchType = MatchType.potential ↔
        (potentialScan (strTrim (toLowerStr input)) vocab catalog).bestSimilarity > (0.6 : ℚ))
    ∧ ((potentialScan (strTrim (toLowerStr input)) vocab catalog).bestSimilarity = (0.6 : ℚ) →
        (findBestMatch input vocab catalog).matchType ≠ MatchType.potential)
    ∧ ((potentialScan (strTrim (toLowerStr input)) vocab catalog).bestSimilarity ≥ (0.60001 : ℚ) →
        (findBestMatch input vocab catalog).matchType = MatchType.potential) := by
  simp only [findBestMatch, if_neg h1, h2]
  by_cases hgt : (potentialScan (strTrim (toLowerStr input)) vocab catalog).bestSimilarity
      > (0.6 : ℚ)
  · rw [if_pos hgt]
    refine ⟨by simp [hgt], ?_, ?_⟩
    · intro heq
      rw [heq] at hgt
      norm_num at hgt
    · intro _
      rfl
  · rw [if_neg hgt]
    refine ⟨?_, ?_, ?_⟩
    · constructor
      · intro h
        simp [noneResult] at h
      · intro h
        exact absurd h hgt
    · intro _ h
      simp [noneResult] at h
    · intro hge
      exfalso
      apply hgt
      have : (0.6 : ℚ) < 0.60001 := by norm_num
      linarith

/-- C9: with an empty catalog, every `findBestMatch` call — for any input,
including non-empty cleaned labels, and any vocabulary — returns
`matchType = none` with `matchedWith`, `similarity`, `verkadaDetails` and
`compatibilityType` all absent; as a total function it never raises. -/
theorem findBestMatch_empty_catalog (input : Str) (vocab : List Str) :
    findBestMatch input vocab [] = noneResult := by
  by_cases h : input = [] ∨ strTrim input = []
  · simp only [findBestMatch, if_pos h]
  · simp only [findBestMatch, if_neg h, List.find?_nil]
    rw [if_neg]
    show ¬(potentialScan (strTrim (toLowerStr input)) vocab []).bestSimilarity > (0.6 : ℚ)
    simp only [potentialScan, List.foldl_nil]
    norm_num

/-! ### Aggregation lemmas -/

theorem sumCounts_nil : sumCounts [] = 0 := rfl

theorem sumCounts_cons (p : Str × ℚ) (l : List (Str × ℚ)) :
    sumCounts (p :: l) = p.2 + sumCounts l := by
  simp [sumCounts]

theorem sumCounts_upsert (l : List (Str × ℚ)) (k : Str) (v : ℚ) :
    sumCounts (upsert l k v) = sumCounts l + v := by
  induction l with
  | nil => simp [upsert, sumCounts]
  | cons p rest ih =>
    obtain ⟨k', v'⟩ := p
    by_cases h : k' = k
    · rw [upsert, if_pos h, sumCounts_cons, sumCounts_cons]
      ring
    · rw [upsert, if_neg h, sumCounts_cons, sumCounts_cons, ih]
      ring

theorem aggregate_foldl_sum (parse : Str → ℚ) (modelIdx : Nat) (countIdx : Option Nat) :
    ∀ (rows : List (List Str)) (init : List (Str × ℚ)),
      sumCounts (rows.foldl
        (fun m row =>
          let model := row.getD modelIdx []
          if model = [] then m
          else
            upsert m model
              (match countIdx with
               | some ci => parse (row.getD ci [])
               | Option.none => 1))
        init)
      = sumCounts init +
          ((rows.filter fun r => decide (r.getD modelIdx [] ≠ [])).map
            (fun r =>
              match countIdx with
              | some ci => parse (r.getD ci [])
              | Option.none => (1 : ℚ))).sum := by
  intro rows
  induction rows with
  | nil => intro init; simp
  | cons row rest ih =>
    intro init
    simp only [List.foldl_cons, List.filter_cons]
    by_cases hm : row.getD modelIdx [] = []
    · rw [if_pos hm]
      have hd : (decide (row.getD modelIdx [] ≠ [])) = false :=
        decide_eq_false (fun h => h hm)
      rw [hd]
      simp only [Bool.false_eq_true, if_false]
      exact ih init
    · rw [if_neg hm]
      have hd : (decide (row.getD modelIdx [] ≠ [])) = true := decide_eq_true hm
      rw [hd]
      simp only [if_true]
      rw [ih, sumCounts_upsert, List.map_cons, List.sum_cons]
      ring

theorem sum_map_one (l : List (List Str)) : (l.map fun _ => (1 : ℚ)).sum = l.length := by
  induction l with
  | nil => simp
  | cons a l ih =>
    simp only [List.map_cons, List.sum_cons, List.length_cons, ih]
    push_cast
    ring

/-- C8: count conservation — for every row list and model column, the sum of
the aggregated counts equals the number of rows with a non-empty model cell
when no count column is selected, and the sum of the parsed count-cell values
(the parser, `parseFloat(cell) || 0` in the source with unparseable cells
contributing `0`, is abstracted as an arbitrary `parse`) when a count column is
selected. -/
theorem aggregate_count_conservation (parse : Str → ℚ) (rows : List (List Str))
    (modelIdx : Nat) :
    (sumCounts (aggregate parse rows modelIdx Option.none)
      = (((rows.filter fun r => decide (r.getD modelIdx [] ≠ [])).length : ℕ) : ℚ))
    ∧ ∀ countIdx : Nat,
        sumCounts (aggregate parse rows modelIdx (some countIdx))
          = ((rows.filter fun r => decide (r.getD modelIdx [] ≠ [])).map
              (fun r => parse (r.getD countIdx []))).sum := by
  constructor
  · have h := aggregate_foldl_sum parse modelIdx Option.none rows []
    simp only [aggregate]
    rw [h, sumCounts_nil, zero_add]
    have hlam : (fun (r : List Str) =>
        (match (Option.none : Option Nat) with
         | some ci => parse (r.getD ci [])
         | Option.none => (1 : ℚ))) = fun _ => (1 : ℚ) := rfl
    rw [hlam, sum_map_one]
  · intro countIdx
    have h := aggregate_foldl_sum parse modelIdx (some countIdx) rows []
    simp only [aggregate]
    rw [h, sumCounts_nil, zero_add]

/-! ### Token Cleaner lemmas -/

theorem char_le_toNat {a b : Char} : a ≤ b ↔ a.toNat ≤ b.toNat := by
  rw [Char.le_def, UInt32.le_def, BitVec.le_def]
  exact Iff.rfl

theorem isAlphanum_of_isDigit {c : Char} (h : c.isDigit = true) : c.isAlphanum = true := by
  simp [Char.isAlphanum, h]

theorem isAlphanum_of_isAlpha {c : Char} (h : c.isAlpha = true) : c.isAlphanum = true := by
  simp [Char.isAlphanum, h]

theorem uint32_le_of_toNat {a b : UInt32} (h : a.toNat ≤ b.toNat) : a ≤ b := by
  rw [UInt32.le_def, BitVec.le_def]
  exact h

theorem isAlphanum_of_isHexDigit {c : Char} (h : isHexDigit c = true) : c.isAlphanum = true := by
  simp only [isHexDigit, Bool.or_eq_true, Bool.and_eq_true, decide_eq_true_eq] at h
  rcases h with (h | ⟨h1, h2⟩) | ⟨h1, h2⟩
  · exact isAlphanum_of_isDigit h
  · simp only [Char.isAlphanum, Char.isAlpha, Char.isLower, Bool.or_eq_true, Bool.and_eq_true,
      decide_eq_true_eq]
    refine Or.inl (Or.inr ⟨?_, ?_⟩)
    · show (97 : UInt32) ≤ c.val
      apply uint32_le_of_toNat
      have := char_le_toNat.mp h1
      simp [Char.toNat, UInt32.size] at this ⊢
      omega
    · show c.val ≤ (122 : UInt32)
      apply uint32_le_of_toNat
      have := char_le_toNat.mp h2
      simp [Char.toNat, UInt32.size] at this ⊢
      omega
  · simp only [Char.isAlphanum, Char.isAlpha, Char.isUpper, Bool.or_eq_true, Bool.and_eq_true,
      decide_eq_true_eq]
    refine Or.inl (Or.inl ⟨?_, ?_⟩)
    · show (65 : UInt32) ≤ c.val
      apply uint32_le_of_toNat
      have := char_le_toNat.mp h1
      simp [Char.toNat, UInt32.size] at this ⊢
      omega
    · show c.val ≤ (90 : UInt32)
      apply uint32_le_of_toNat
      have := char_le_toNat.mp h2
      simp [Char.toNat, UInt32.size] at this ⊢
      omega

theorem cleanModelData_original (input : Str) (vocab : List Str) :
    (cleanModelData input vocab).original = strTrim input := rfl

theorem cleanModelData_removed (input : Str) (vocab : List Str) :
    (cleanModelData input vocab).removedElements
      = (tokenize (strTrim input)).filterMap
          (fun tk => (tokenDecision vocab tk).getD Option.none) := rfl

theorem cleanModelData_cleaned_tokens (input : Str) (vocab : List Str) :
    tokenize (cleanModelData input vocab).cleaned
      = (tokenize (strTrim input)).filter
          (fun tk => decide (tokenDecision vocab tk = Option.none)) := by
  have hwf := tokenize_wf (strTrim input)
  have hkept : ∀ t ∈ (tokenize (strTrim input)).filter
      (fun tk => decide (tokenDecision vocab tk = Option.none)),
      t ≠ [] ∧ ∀ c ∈ t, c.isWhitespace = false :=
    fun t ht => hwf t (List.mem_of_mem_filter ht)
  show tokenize (strTrim (joinSp _)) = _
  rw [strTrim_joinSp _ hkept, tokenize_joinSp _ hkept]

theorem length_filter_add_length_filterMap {α β : Type} (p : α → Bool) (f : α → Option β) :
    ∀ (l : List α),
      (∀ a ∈ l, (p a = true ∧ f a = Option.none) ∨ (p a = false ∧ (f a).isSome = true)) →
      (l.filter p).length + (l.filterMap f).length = l.length := by
  intro l
  induction l with
  | nil => intro _; rfl
  | cons a l ih =>
    intro h
    have hrest := ih fun b hb => h b (by simp [hb])
    rcases h a (by simp) with ⟨hp, hf⟩ | ⟨hp, hf⟩
    · rw [List.filter_cons, hp, List.filterMap_cons, hf]
      simp only [if_true, List.length_cons]
      omega
    · obtain ⟨b, hb⟩ := Option.isSome_iff_exists.mp hf
      rw [List.filter_cons, hp, List.filterMap_cons, hb]
      simp only [Bool.false_eq_true, if_false, List.length_cons]
      omega

theorem tokenDecision_cases (vocab : List Str) (t : Str) (hne : t ≠ [])
    (hws : ∀ c ∈ t, c.isWhitespace = false) :
    tokenDecision vocab t = Option.none ∨
      ∃ reason ∈ ["IP", "MAC", "Date", "Manufacturer", "Common word", "Punctuation"],
        tokenDecision vocab t = some (some (mkEntry reason t)) := by
  have htrim : strTrim t = t := strTrim_eq_of_no_ws hws
  simp only [tokenDecision, htrim]
  split_ifs
  · exact absurd (by assumption) hne
  · exact Or.inr ⟨"IP", by simp, rfl⟩
  · exact Or.inr ⟨"MAC", by simp, rfl⟩
  · exact Or.inr ⟨"Date", by simp, rfl⟩
  · exact Or.inr ⟨"Manufacturer", by simp, rfl⟩
  · exact Or.inr ⟨"Common word", by simp, rfl⟩
  · exact Or.inl rfl
  · exact Or.inr ⟨"Punctuation", by simp, rfl⟩
  · exact Or.inl rfl

/-- C10: the whitespace-run tokens of the trimmed input are exactly partitioned
by `cleanModelData`: the cleaned output's tokens are precisely the kept tokens
in original order and unchanged, every dropped token contributes exactly one
removal record of the form `"<reason>: <token>"` (reasons drawn from IP, MAC,
Date, Manufacturer, Common word, Punctuation) in original token order, and the
kept-token count plus the removal-record count equals the original token
count. -/
theorem cleanModelData_token_partition (input : Str) (vocab : List Str) :
    (tokenize (cleanModelData input vocab).cleaned
        = (tokenize (strTrim input)).filter
            (fun tk => decide (tokenDecision vocab tk = Option.none)))
    ∧ ((cleanModelData input vocab).removedElements
        = (tokenize (strTrim input)).filterMap
            (fun tk => (tokenDecision vocab tk).getD Option.none))
    ∧ (∀ t ∈ tokenize (strTrim input),
        tokenDecision vocab t = Option.none ∨
          ∃ reason ∈ ["IP", "MAC", "Date", "Manufacturer", "Common word", "Punctuation"],
            tokenDecision vocab t = some (some (mkEntry reason t)))
    ∧ (tokenize (cleanModelData input vocab).cleaned).length
        + (cleanModelData input vocab).removedElements.length
        = (tokenize (strTrim input)).length := by
  have hwf := tokenize_wf (strTrim input)
  have hcases : ∀ t ∈ tokenize (strTrim input),
      tokenDecision vocab t = Option.none ∨
        ∃ reason ∈ ["IP", "MAC", "Date", "Manufacturer", "Common word", "Punctuation"],
          tokenDecision vocab t = some (some (mkEntry reason t)) := by
    intro t ht
    obtain ⟨hne, hws⟩ := hwf t ht
    exact tokenDecision_cases vocab t hne hws
  refine ⟨cleanModelData_cleaned_tokens input vocab, cleanModelData_removed input vocab,
    hcases, ?_⟩
  rw [cleanModelData_cleaned_tokens input vocab, cleanModelData_removed input vocab]
  apply length_filter_add_length_filterMap
  intro t ht
  rcases hcases t ht with h | ⟨reason, _, h⟩
  · exact Or.inl ⟨by simp [h], by rw [h]; rfl⟩
  · exact Or.inr ⟨by simp [h], by rw [h]; rfl⟩

theorem tokenDecision_none_of_clean (vocab : List Str) (t : Str) (hne : t ≠ [])
    (hws : ∀ c ∈ t, c.isWhitespace = false)
    (hip : isIPToken t = false) (hmac : isMACToken t = false)
    (hdate : isDateToken t = false) (hman : isManufacturerToken vocab t = false)
    (hcw : isCommonWordToken t = false) (hp : isPunctToken t = false) :
    tokenDecision vocab t = Option.none := by
  have htrim : strTrim t = t := strTrim_eq_of_no_ws hws
  simp only [tokenDecision, htrim]
  rw [if_neg hne, if_neg (by simp [hip]), if_neg (by simp [hmac]), if_neg (by simp [hdate]),
    if_neg (by simp [hman]), if_neg (by simp [hcw])]
  by_cases hal : containsAlnum t = true
  · rw [if_pos hal]
  · rw [if_neg hal, if_neg (by simp [hp])]

/-- C7: noise-free idempotence — when no whitespace-delimited token of the
input matches the IP, MAC, date, manufacturer-vocabulary, common-word or
pure-punctuation checks, `cleanModelData` returns the input unchanged except
for whitespace normalization (the tokens rejoined with single spaces and
trimmed) and records nothing in `removedElements`. -/
theorem cleanModelData_noise_free (input : Str) (vocab : List Str)
    (h : ∀ t ∈ tokenize (strTrim input),
      isIPToken t = false ∧ isMACToken t = false ∧ isDateToken t = false ∧
        isManufacturerToken vocab t = false ∧ isCommonWordToken t = false ∧
        isPunctToken t = false) :
    (cleanModelData input vocab).cleaned = joinSp (tokenize (strTrim input)) ∧
      (cleanModelData input vocab).removedElements = [] := by
  have hwf := tokenize_wf (strTrim input)
  have hdec : ∀ t ∈ tokenize (strTrim input), tokenDecision vocab t = Option.none := by
    intro t ht
    obtain ⟨hne, hws⟩ := hwf t ht
    obtain ⟨hip, hmac, hdate, hman, hcw, hp⟩ := h t ht
    exact tokenDecision_none_of_clean vocab t hne hws hip hmac hdate hman hcw hp
  constructor
  · show strTrim (joinSp ((tokenize (strTrim input)).filter _)) = _
    have hfilter : (tokenize (strTrim input)).filter
        (fun tk => decide (tokenDecision vocab tk = Option.none)) = tokenize (strTrim input) :=
      List.filter_eq_self.mpr fun a ha => by simp [hdec a ha]
    rw [hfilter, strTrim_joinSp _ hwf]
  · rw [cleanModelData_removed]
    apply List.filterMap_eq_nil_iff.mpr
    intro a ha
    rw [hdec a ha]
    rfl

/-- C5 counterexample: `fe80::1` is a compressed IPv6 address, yet the Token
Cleaner keeps it and records nothing — the source's `IPV6_PATTERN` accepts only
the full 8-group form and the literals `::`/`::1`. -/
theorem cleanModelData_keeps_compressed_ipv6 :
    cleanModelData (lit "fe80::1") [] =
      { original := lit "fe80::1", cleaned := lit "fe80::1", removedElements := [] } := by
  decide

/-- C5 (amended): for every vocabulary and input, every whitespace-delimited
token that is a valid IPv4 dotted-quad (octets 0-255), an IPv6 address in full
8-group form, or one of the literal forms `::`/`::1` (the `isIPToken` check) is
dropped by the Token Cleaner and recorded in `removedElements` with reason
`IP`. -/
theorem cleanModelData_drops_ip (input : Str) (vocab : List Str) (t : Str)
    (ht : t ∈ tokenize (strTrim input)) (hip : isIPToken t = true) :
    mkEntry "IP" t ∈ (cleanModelData input vocab).removedElements ∧
      t ∉ tokenize (cleanModelData input vocab).cleaned := by
  obtain ⟨hne, hws⟩ := tokenize_wf (strTrim input) t ht
  have htrim : strTrim t = t := strTrim_eq_of_no_ws hws
  have hdec : tokenDecision vocab t = some (some (mkEntry "IP" t)) := by
    simp only [tokenDecision, htrim]
    rw [if_neg hne, if_pos (by simp [hip])]
  constructor
  · rw [cleanModelData_removed]
    exact List.mem_filterMap.mpr ⟨t, ht, by rw [hdec]; rfl⟩
  · rw [cleanModelData_cleaned_tokens]
    intro hmem
    have := (List.mem_filter.mp hmem).2
    simp [hdec] at this

theorem monthDateTail_false_of_no_ws (s : Str) (h : ∀ c ∈ s, c.isWhitespace = false) :
    monthDateTail s = false := by
  cases s with
  | nil => rfl
  | cons c cs =>
    have hc : c.isWhitespace = false := h c (by simp)
    simp [monthDateTail, List.takeWhile_cons, hc]

theorem isDateMonthName_false_of_no_ws (s : Str) (h : ∀ c ∈ s, c.isWhitespace = false) :
    isDateMonthName s = false := by
  cases s with
  | nil => rfl
  | cons c1 s1 =>
    cases s1 with
    | nil => rfl
    | cons c2 s2 =>
      cases s2 with
      | nil => rfl
      | cons c3 rest =>
        simp only [isDateMonthName]
        rw [monthDateTail_false_of_no_ws rest (fun c hc => h c (by simp [hc]))]
        simp

theorem isOctet_has_alnum (p : Str) (hp : isOctet p = true) :
    ∃ c ∈ p, c.isAlphanum = true := by
  match p with
  | [] => simp [isOctet] at hp
  | [a] =>
    simp only [isOctet] at hp
    exact ⟨a, by simp, isAlphanum_of_isDigit hp⟩
  | [a, b] =>
    simp only [isOctet, Bool.and_eq_true] at hp
    exact ⟨a, by simp, isAlphanum_of_isDigit hp.1⟩
  | [a, b, c] =>
    simp only [isOctet, Bool.or_eq_true, Bool.and_eq_true, decide_eq_true_eq] at hp
    have ha : a = '2' ∨ a = '0' ∨ a = '1' := by tauto
    rcases ha with ha | ha | ha <;>
      exact ⟨a, by simp, by rw [ha]; decide⟩
  | a :: b :: c :: d :: rest => simp [isOctet] at hp

theorem digitsBetween_has_digit (lo hi : Nat) (p : Str) (hlo : 1 ≤ lo)
    (h : digitsBetween lo hi p = true) : ∃ c ∈ p, c.isDigit = true := by
  simp only [digitsBetween, Bool.and_eq_true, decide_eq_true_eq, List.all_eq_true] at h
  cases p with
  | nil =>
    exfalso
    have := h.1.1
    simp at this
    omega
  | cons c cs => exact ⟨c, by simp, h.2 c (by simp)⟩


theorem isDateDMY_false_of_no_alnum (sep : Char) (t : Str)
    (hna : ∀ c ∈ t, c.isAlphanum = false) : isDateDMY sep t = false := by
  rw [Bool.eq_false_iff]
  intro h
  simp only [isDateDMY] at h
  rcases hsplit : splitOn sep t with _ | ⟨a, _ | ⟨b, _ | ⟨c, _ | ⟨d, rest⟩⟩⟩⟩ <;>
    rw [hsplit] at h
  · simp at h
  · simp at h
  · simp at h
  · rw [Bool.and_eq_true, Bool.and_eq_true] at h
    obtain ⟨ch, hch, hdig⟩ := digitsBetween_has_digit 1 2 a (by omega) h.1.1
    have hmem : ch ∈ t := splitOn_chars sep t a (by rw [hsplit]; simp) ch hch
    exact absurd (isAlphanum_of_isDigit hdig) (by simp [hna ch hmem])
  · simp at h

theorem isDateYMD_false_of_no_alnum (t : Str)
    (hna : ∀ c ∈ t, c.isAlphanum = false) : isDateYMD t = false := by
  rw [Bool.eq_false_iff]
  intro h
  simp only [isDateYMD] at h
  rcases hsplit : splitOn '-' t with _ | ⟨a, _ | ⟨b, _ | ⟨c, _ | ⟨d, rest⟩⟩⟩⟩ <;>
    rw [hsplit] at h
  · simp at h
  · simp at h
  · simp at h
  · rw [Bool.and_eq_true, Bool.and_eq_true] at h
    obtain ⟨ch, hch, hdig⟩ := digitsBetween_has_digit 4 4 a (by omega) h.1.1
    have hmem : ch ∈ t := splitOn_chars '-' t a (by rw [hsplit]; simp) ch hch
    exact absurd (isAlphanum_of_isDigit hdig) (by simp [hna ch hmem])
  · simp at h

theorem isDateToken_false_of_no_alnum (t : Str)
    (hna : ∀ c ∈ t, c.isAlphanum = false) (hws : ∀ c ∈ t, c.isWhitespace = false) :
    isDateToken t = false := by
  simp only [isDateToken,
    isDateDMY_false_of_no_alnum '/' t hna,
    isDateDMY_false_of_no_alnum '-' t hna,
    isDateDMY_false_of_no_alnum '.' t hna,
    isDateYMD_false_of_no_alnum t hna,
    isDateMonthName_false_of_no_ws t hws, Bool.or_false, Bool.false_or]

theorem isIPv4_false_of_no_alnum (t : Str)
    (hna : ∀ c ∈ t, c.isAlphanum = false) : isIPv4 t = false := by
  rw [Bool.eq_false_iff]
  intro h
  simp only [isIPv4] at h
  rcases hsplit : splitOn '.' t with _ | ⟨a, _ | ⟨b, _ | ⟨c, _ | ⟨d, _ | ⟨e, rest⟩⟩⟩⟩⟩ <;>
    rw [hsplit] at h
  · simp at h
  · simp at h
  · simp at h
  · simp at h
  · rw [Bool.and_eq_true, Bool.and_eq_true, Bool.and_eq_true] at h
    obtain ⟨ch, hch, halnum⟩ := isOctet_has_alnum a h.1.1.1
    have hmem : ch ∈ t := splitOn_chars '.' t a (by rw [hsplit]; simp) ch hch
    rw [hna ch hmem] at halnum
    exact absurd halnum (by simp)
  · simp at h

theorem isIPv6_false_of_no_alnum (t : Str)
    (hna : ∀ c ∈ t, c.isAlphanum = false) (hcolon : t ≠ [':', ':']) :
    isIPv6 t = false := by
  rw [Bool.eq_false_iff]
  intro h
  simp only [isIPv6, Bool.or_eq_true] at h
  rcases h with (h | h) | h
  · rw [Bool.and_eq_true] at h
    obtain ⟨hlen, hall⟩ := h
    rw [List.all_eq_true] at hall
    rcases hsplit : splitOn ':' t with _ | ⟨p, parts⟩
    · rw [hsplit] at hlen; simp at hlen
    · have hp := hall p (by rw [hsplit]; simp)
      rw [Bool.and_eq_true, Bool.and_eq_true] at hp
      rcases hq : p with _ | ⟨ch, cs⟩
      · rw [hq] at hp
        have := hp.1.1
        simp at this
      · have hhex : isHexDigit ch = true := by
          have := hp.2
          rw [List.all_eq_true] at this
          exact this ch (by rw [hq]; simp)
        have hmem : ch ∈ t :=
          splitOn_chars ':' t p (by rw [hsplit]; simp) ch (by rw [hq]; simp)
        exact absurd (isAlphanum_of_isHexDigit hhex) (by simp [hna ch hmem])
  · rw [decide_eq_true_eq] at h
    have hmem : '1' ∈ t := by rw [h]; simp
    have := hna '1' hmem
    simp at this
  · rw [decide_eq_true_eq] at h
    exact hcolon h

theorem isMACToken_false_of_no_alnum (t : Str)
    (hna : ∀ c ∈ t, c.isAlphanum = false) : isMACToken t = false := by
  rw [Bool.eq_false_iff]
  intro h
  simp only [isMACToken, Bool.or_eq_true] at h
  rcases h with h | h
  · rcases ht : t with _ | ⟨a, _ | ⟨b, rest⟩⟩ <;> rw [ht] at h
    · simp at h
    · simp at h
    · rw [Bool.and_eq_true, Bool.and_eq_true] at h
      have : a ∈ t := by rw [ht]; simp
      exact absurd (isAlphanum_of_isHexDigit h.1.1) (by simp [hna a this])
  · rcases hsplit : splitOn '.' t with _ | ⟨p, _ | ⟨q, _ | ⟨r, _ | rest⟩⟩⟩ <;>
      rw [hsplit] at h
    · simp at h
    · simp at h
    · simp at h
    · rw [Bool.and_eq_true, Bool.and_eq_true, Bool.and_eq_true, Bool.and_eq_true,
        Bool.and_eq_true] at h
      obtain ⟨⟨⟨⟨⟨hplen, hpall⟩, hqlen⟩, hqall⟩, hrlen⟩, hrall⟩ := h
      rcases hq : p with _ | ⟨ch, cs⟩
      · rw [hq] at hplen
        simp at hplen
      · have hhex : isHexDigit ch = true := by
          rw [List.all_eq_true] at hpall
          exact hpall ch (by rw [hq]; simp)
        have hmem : ch ∈ t :=
          splitOn_chars '.' t p (by rw [hsplit]; simp) ch (by rw [hq]; simp)
        exact absurd (isAlphanum_of_isHexDigit hhex) (by simp [hna ch hmem])
    · simp at h

theorem isCommonWordToken_false_of_no_alnum (t : Str)
    (hna : ∀ c ∈ t, c.isAlphanum = false) : isCommonWordToken t = false := by
  rw [Bool.eq_false_iff]
  intro h
  simp only [isCommonWordToken, Bool.and_eq_true] at h
  rcases ht : t with _ | ⟨c, cs⟩ <;> rw [ht] at h
  · simp at h
  · have halpha : c.isAlpha = true := by
      have := h.1.1.2
      rw [List.all_eq_true] at this
      exact this c (by simp)
    have : c ∈ t := by rw [ht]; simp
    exact absurd (isAlphanum_of_isAlpha halpha) (by simp [hna c this])

theorem containsAlnum_false_of_no_alnum (t : Str)
    (hna : ∀ c ∈ t, c.isAlphanum = false) : containsAlnum t = false := by
  rw [Bool.eq_false_iff]
  intro h
  simp only [containsAlnum, List.any_eq_true] at h
  obtain ⟨c, hc, halnum⟩ := h
  rw [hna c hc] at halnum
  exact absurd halnum (by simp)

/-- C6 counterexample: `---` is composed entirely of punctuation/symbols (no
letters, no digits), yet the Token Cleaner keeps it and records nothing: the
source's punctuation class `[^\w\s-_\.]` exempts the model separators `-`, `_`
and `.`. -/
theorem cleanModelData_keeps_separator_run :
    cleanModelData (lit "---") [] =
      { original := lit "---", cleaned := lit "---", removedElements := [] } := by
  decide

/-- C6 (amended): for every vocabulary and input, every whitespace-delimited
token composed entirely of punctuation/symbol characters other than the
exempted separators — no alphanumerics and none of `-`, `_`, `.` — that is not
the literal `::` (claimed first by the IP rule) and is not in a case-insensitive
substring relation with a vocabulary entry (claimed first by the manufacturer
rule) is dropped by the Token Cleaner and recorded in `removedElements` with
reason `Punctuation`. -/
theorem cleanModelData_drops_punct (input : Str) (vocab : List Str) (t : Str)
    (ht : t ∈ tokenize (strTrim input))
    (hchars : ∀ c ∈ t, c.isAlphanum = false ∧ c ≠ '-' ∧ c ≠ '_' ∧ c ≠ '.')
    (hcolon : t ≠ [':', ':'])
    (hman : isManufacturerToken vocab t = false) :
    mkEntry "Punctuation" t ∈ (cleanModelData input vocab).removedElements ∧
      t ∉ tokenize (cleanModelData input vocab).cleaned := by
  obtain ⟨hne, hws⟩ := tokenize_wf (strTrim input) t ht
  have hna : ∀ c ∈ t, c.isAlphanum = false := fun c hc => (hchars c hc).1
  have htrim : strTrim t = t := strTrim_eq_of_no_ws hws
  have hpunct : isPunctToken t = true := by
    simp only [isPunctToken, Bool.and_eq_true, List.all_eq_true]
    constructor
    · cases t with
      | nil => exact absurd rfl hne
      | cons a l => rfl
    · intro c hc
      obtain ⟨h1, h2, h3, h4⟩ := hchars c hc
      simp [isWordChar, h1, h2, h3, h4, hws c hc]
  have hdec : tokenDecision vocab t = some (some (mkEntry "Punctuation" t)) := by
    simp only [tokenDecision, htrim]
    rw [if_neg hne,
      if_neg (by
        simp [isIPToken, isIPv4_false_of_no_alnum t hna,
          isIPv6_false_of_no_alnum t hna hcolon]),
      if_neg (by simp [isMACToken_false_of_no_alnum t hna]),
      if_neg (by simp [isDateToken_false_of_no_alnum t hna hws]),
      if_neg (by simp [hman]),
      if_neg (by simp [isCommonWordToken_false_of_no_alnum t hna]),
      if_neg (by simp [containsAlnum_false_of_no_alnum t hna]),
      if_pos (by simp [hpunct])]
  constructor
  · rw [cleanModelData_removed]
    exact List.mem_filterMap.mpr ⟨t, ht, by rw [hdec]; rfl⟩
  · rw [cleanModelData_cleaned_tokens]
    intro hmem
    have := (List.mem_filter.mp hmem).2
    simp [hdec] at this

/-- C3 counterexample: in the catalog `[abcdx, abc]` against cleaned input
`abcde` (no exact match), the entry `abcdx` reaches similarity `4/5 ≥ 0.60001`,
yet the result is none, not potential: the later entry `abc` is a substring of
the input with similarity `3/5 > 0.5`, so the containment rule lowers the
tracked best to `3/5`, which fails the `> 0.6` threshold. -/
theorem potential_entry_threshold_counterexample :
    (calculateSimilarity (strTrim (toLowerStr (lit "abcde")))
        (toLowerStr (preprocessModelForMatching (lit "abcdx") [])) ≥ (0.60001 : ℚ))
    ∧ findBestMatch (lit "abcde") []
        [⟨lit "m", lit "abcdx", [], []⟩, ⟨lit "m", lit "abc", [], []⟩] = noneResult := by
  constructor
  · with_unfolding_all decide
  · with_unfolding_all decide

/-- Witness for C1 at a concrete instance. -/
theorem findBestMatch_potential_pass_is_spec_scan_witness :
    (¬(lit "ab" = [] ∨ strTrim (lit "ab") = []))
    ∧ ([(⟨lit "m", lit "zz", [], []⟩ : VerkadaModel)].find?
        (exactPred (strTrim (toLowerStr (lit "ab"))) []) = Option.none)
    ∧ findBestMatch (lit "ab") [] [⟨lit "m", lit "zz", [], []⟩] =
        (let st := [(⟨lit "m", lit "zz", [], []⟩ : VerkadaModel)].foldl
            (specPotentialStep (strTrim (toLowerStr (lit "ab"))) [])
            { bestSim := 0, bestEntry := Option.none }
         if st.bestSim > (0.6 : ℚ) then
           { matchType := MatchType.potential, matchedWith := some (specName st.bestEntry)
             similarity := some st.bestSim, verkadaDetails := st.bestEntry
             compatibilityType := some (getCompatibilityType st.bestEntry) }
         else noneResult) :=
  ⟨by decide, by decide,
    findBestMatch_potential_pass_is_spec_scan (lit "ab") [] [⟨lit "m", lit "zz", [], []⟩]
      (by decide) (by decide)⟩

/-- Witness for C2 at a concrete instance. -/
theorem findBestMatch_exact_first_witness :
    (¬(lit "ab" = [] ∨ strTrim (lit "ab") = []))
    ∧ ([(⟨lit "Ax", lit "AB", [], []⟩ : VerkadaModel)].find?
        (exactPred (strTrim (toLowerStr (lit "ab"))) [])
        = some ⟨lit "Ax", lit "AB", [], []⟩)
    ∧ findBestMatch (lit "ab") [] [⟨lit "Ax", lit "AB", [], []⟩] =
        { matchType := MatchType.exact, matchedWith := some (lit "AB")
          similarity := some 1, verkadaDetails := some ⟨lit "Ax", lit "AB", [], []⟩
          compatibilityType := some (getCompatibilityType (some ⟨lit "Ax", lit "AB", [], []⟩)) } :=
  ⟨by decide, by decide,
    findBestMatch_exact_first (lit "ab") [] [⟨lit "Ax", lit "AB", [], []⟩]
      ⟨lit "Ax", lit "AB", [], []⟩ (by decide) (by decide)⟩

/-- Witness for the amended C3 at a concrete instance. -/
theorem findBestMatch_potential_iff_threshold_witness :
    (¬(lit "abcx" = [] ∨ strTrim (lit "abcx") = []))
    ∧ ([(⟨lit "m", lit "abcd", [], []⟩ : VerkadaModel)].find?
        (exactPred (strTrim (toLowerStr (lit "abcx"))) []) = Option.none)
    ∧ (((findBestMatch (lit "abcx") [] [⟨lit "m", lit "abcd", [], []⟩]).matchType
          = MatchType.potential ↔
        (potentialScan (strTrim (toLowerStr (lit "abcx"))) []
          [⟨lit "m", lit "abcd", [], []⟩]).bestSimilarity > (0.6 : ℚ))
      ∧ ((potentialScan (strTrim (toLowerStr (lit "abcx"))) []
            [⟨lit "m", lit "abcd", [], []⟩]).bestSimilarity = (0.6 : ℚ) →
          (findBestMatch (lit "abcx") [] [⟨lit "m", lit "abcd", [], []⟩]).matchType
            ≠ MatchType.potential)
      ∧ ((potentialScan (strTrim (toLowerStr (lit "abcx"))) []
            [⟨lit "m", lit "abcd", [], []⟩]).bestSimilarity ≥ (0.60001 : ℚ) →
          (findBestMatch (lit "abcx") [] [⟨lit "m", lit "abcd", [], []⟩]).matchType
            = MatchType.potential)) :=
  ⟨by decide, by decide,
    findBestMatch_potential_iff_threshold (lit "abcx") [] [⟨lit "m", lit "abcd", [], []⟩]
      (by decide) (by decide)⟩

/-- Witness for the amended C5 at a concrete instance. -/
theorem cleanModelData_drops_ip_witness :
    (lit "10.0.0.1" ∈ tokenize (strTrim (lit "10.0.0.1 cam9")))
    ∧ isIPToken (lit "10.0.0.1") = true
    ∧ (mkEntry "IP" (lit "10.0.0.1")
        ∈ (cleanModelData (lit "10.0.0.1 cam9") []).removedElements
      ∧ lit "10.0.0.1" ∉ tokenize (cleanModelData (lit "10.0.0.1 cam9") []).cleaned) :=
  ⟨by decide, by decide,
    cleanModelData_drops_ip (lit "10.0.0.1 cam9") [] (lit "10.0.0.1")
      (by decide) (by decide)⟩

/-- Witness for the amended C6 at a concrete instance. -/
theorem cleanModelData_drops_punct_witness :
    (lit "!!!" ∈ tokenize (strTrim (lit "!!! x1")))
    ∧ (∀ c ∈ lit "!!!", c.isAlphanum = false ∧ c ≠ '-' ∧ c ≠ '_' ∧ c ≠ '.')
    ∧ (lit "!!!" ≠ [':', ':'])
    ∧ isManufacturerToken [] (lit "!!!") = false
    ∧ (mkEntry "Punctuation" (lit "!!!")
        ∈ (cleanModelData (lit "!!! x1") []).removedElements
      ∧ lit "!!!" ∉ tokenize (cleanModelData (lit "!!! x1") []).cleaned) :=
  ⟨by decide, by decide, by decide, by decide,
    cleanModelData_drops_punct (lit "!!! x1") [] (lit "!!!")
      (by decide) (by decide) (by decide) (by decide)⟩

/-- Witness for C7 at a concrete instance. -/
theorem cleanModelData_noise_free_witness :
    (∀ t ∈ tokenize (strTrim (lit "AXS-4000  rev2")),
      isIPToken t = false ∧ isMACToken t = false ∧ isDateToken t = false ∧
        isManufacturerToken [lit "Axis"] t = false ∧ isCommonWordToken t = false ∧
        isPunctToken t = false)
    ∧ ((cleanModelData (lit "AXS-4000  rev2") [lit "Axis"]).cleaned
          = joinSp (tokenize (strTrim (lit "AXS-4000  rev2")))
      ∧ (cleanModelData (lit "AXS-4000  rev2") [lit "Axis"]).removedElements = []) :=
  ⟨by decide,
    cleanModelData_noise_free (lit "AXS-4000  rev2") [lit "Axis"] (by decide)⟩
